import Mathlib

/-!
Verification development for the vector kernel of this repository
(`src/wasm/vector_simd.c` and `src/wasm/vector_simd.cpp`).

Both source files compute over IEEE-754 single-precision floats
(`float`).  The embedding models a `float` exactly: a value is either a
finite value (carried as the exact rational it denotes), `+inf`, `-inf`
or `nan`, and every arithmetic operation rounds its exact rational
result to the binary32 grid with round-to-nearest, ties-to-even,
including gradual underflow to the subnormal grid (spacing `2^-149`)
and overflow to infinity, exactly as IEEE 754 prescribes.  NaN payloads
and the sign of zero are not modelled (no claim depends on them); a
division of a nonzero value by zero returns the infinity of the
numerator's sign, as for division by `+0`.
-/

/-- Powers of two as rationals, for the binary32 grids. -/
def pow2 (e : ℤ) : ℚ :=
  if 0 ≤ e then ((2 ^ e.toNat : ℕ) : ℚ) else 1 / ((2 ^ (-e).toNat : ℕ) : ℚ)

/-- Absolute value on ℚ, written out so that the kernel evaluates it. -/
def qabs (q : ℚ) : ℚ := if q < 0 then -q else q

/-- Floor of a rational as an integer (denominators are positive). -/
def qfloor (q : ℚ) : ℤ := Int.fdiv q.num q.den

/-- Fuelled base-2 logarithm on ℕ: with enough fuel, the largest `e`
with `2^e ≤ n` (and `0` for `n < 2`). -/
def lg2 : ℕ → ℕ → ℕ
  | 0, _ => 0
  | f + 1, n => if 2 ≤ n then lg2 f (n / 2) + 1 else 0

/-- Binade of a positive rational: the unique `e` with
`2^e ≤ q < 2^(e+1)`, computed from the bit lengths of numerator and
denominator with a final one-step correction. -/
def ilog2 (q : ℚ) : ℤ :=
  let n := q.num.natAbs
  let e0 : ℤ := (lg2 n n : ℤ) - (lg2 q.den q.den : ℤ)
  if pow2 e0 ≤ q then e0 else e0 - 1

/-- Round a rational to the nearest integer, ties to even. -/
def rneZ (q : ℚ) : ℤ :=
  let n := qfloor q
  let r := q - (n : ℚ)
  if r < 1 / 2 then n
  else if 1 / 2 < r then n + 1
  else if n % 2 = 0 then n else n + 1

/-- Round a rational to the nearest multiple of `2^s`, ties to even. -/
def roundScaled (s : ℤ) (q : ℚ) : ℚ := (rneZ (q / pow2 s) : ℚ) * pow2 s

/-- Largest finite binary32 value, `(2^24 - 1) * 2^104`. -/
def FMAX : ℚ := ((2 ^ 24 - 1 : ℕ) : ℚ) * pow2 104

/-- A single-precision float value: an exact finite value, an infinity,
or NaN.  Signed zero is collapsed to `fin 0`. -/
inductive FF
  | fin (q : ℚ)
  | inf
  | neginf
  | nan
  deriving DecidableEq

/-- Round an exact rational to binary32: pick the grid exponent from the
binade (clamped at the subnormal grid `2^-149`), round to nearest with
ties to even, and overflow to the appropriately signed infinity. -/
def roundB32 (q : ℚ) : FF :=
  if q = 0 then FF.fin 0
  else
    let e := max (ilog2 (qabs q)) (-126)
    let r := roundScaled (e - 23) q
    if FMAX < qabs r then (if 0 < q then FF.inf else FF.neginf) else FF.fin r

/-- Newton iteration step for the integer square root. -/
def isqrtGo : ℕ → ℕ → ℕ → ℕ
  | 0, _, x => x
  | f + 1, n, x =>
    let y := (x + n / x) / 2
    if y < x then isqrtGo f n y else x

/-- Fuelled integer square root (the fuel is ample for every operand a
binary32 square root ever produces here). -/
def isqrt (n : ℕ) : ℕ := if n ≤ 1 then n else isqrtGo 200 n n

/-- Correctly rounded binary32 square root of a positive rational:
scale into the target binade, take the integer square root of the
scaled operand, and decide the final mantissa by comparing against the
squared midpoint (ties to even). -/
def sqrtB32 (q : ℚ) : ℚ :=
  let e := ilog2 q
  let e2 : ℤ := if e % 2 = 0 then e / 2 else (e - 1) / 2
  let s := e2 - 23
  let t := q / pow2 (2 * s)
  let n0 := isqrt (qfloor t).toNat
  let mid : ℚ := ((2 * n0 + 1 : ℕ) : ℚ)
  let n : ℕ :=
    if 4 * t < mid * mid then n0
    else if mid * mid < 4 * t then n0 + 1
    else if n0 % 2 = 0 then n0 else n0 + 1
  (n : ℚ) * pow2 s

/-- IEEE addition on the model. -/
def FF.add : FF → FF → FF
  | FF.nan, _ => FF.nan
  | _, FF.nan => FF.nan
  | FF.fin p, FF.fin q => roundB32 (p + q)
  | FF.fin _, FF.inf => FF.inf
  | FF.inf, FF.fin _ => FF.inf
  | FF.fin _, FF.neginf => FF.neginf
  | FF.neginf, FF.fin _ => FF.neginf
  | FF.inf, FF.inf => FF.inf
  | FF.neginf, FF.neginf => FF.neginf
  | FF.inf, FF.neginf => FF.nan
  | FF.neginf, FF.inf => FF.nan

/-- IEEE subtraction on the model. -/
def FF.sub : FF → FF → FF
  | FF.nan, _ => FF.nan
  | _, FF.nan => FF.nan
  | FF.fin p, FF.fin q => roundB32 (p - q)
  | FF.fin _, FF.inf => FF.neginf
  | FF.fin _, FF.neginf => FF.inf
  | FF.inf, FF.fin _ => FF.inf
  | FF.neginf, FF.fin _ => FF.neginf
  | FF.inf, FF.inf => FF.nan
  | FF.neginf, FF.neginf => FF.nan
  | FF.inf, FF.neginf => FF.inf
  | FF.neginf, FF.inf => FF.neginf

/-- IEEE multiplication on the model (`0 * ±inf = nan`). -/
def FF.mul : FF → FF → FF
  | FF.nan, _ => FF.nan
  | _, FF.nan => FF.nan
  | FF.fin p, FF.fin q => roundB32 (p * q)
  | FF.fin p, FF.inf => if p = 0 then FF.nan else if 0 < p then FF.inf else FF.neginf
  | FF.inf, FF.fin p => if p = 0 then FF.nan else if 0 < p then FF.inf else FF.neginf
  | FF.fin p, FF.neginf => if p = 0 then FF.nan else if 0 < p then FF.neginf else FF.inf
  | FF.neginf, FF.fin p => if p = 0 then FF.nan else if 0 < p then FF.neginf else FF.inf
  | FF.inf, FF.inf => FF.inf
  | FF.inf, FF.neginf => FF.neginf
  | FF.neginf, FF.inf => FF.neginf
  | FF.neginf, FF.neginf => FF.inf

/-- IEEE division on the model (`0/0 = nan`, `x/0 = ±inf` for nonzero
finite `x`, as for a positive zero denominator). -/
def FF.div : FF → FF → FF
  | FF.nan, _ => FF.nan
  | _, FF.nan => FF.nan
  | FF.fin p, FF.fin q =>
    if q = 0 then (if p = 0 then FF.nan else if 0 < p then FF.inf else FF.neginf)
    else roundB32 (p / q)
  | FF.fin _, FF.inf => FF.fin 0
  | FF.fin _, FF.neginf => FF.fin 0
  | FF.inf, FF.fin q => if 0 ≤ q then FF.inf else FF.neginf
  | FF.neginf, FF.fin q => if 0 ≤ q then FF.neginf else FF.inf
  | FF.inf, FF.inf => FF.nan
  | FF.inf, FF.neginf => FF.nan
  | FF.neginf, FF.inf => FF.nan
  | FF.neginf, FF.neginf => FF.nan

/-- IEEE square root on the model (exact zero maps to zero). -/
def FF.sqrtF : FF → FF
  | FF.nan => FF.nan
  | FF.neginf => FF.nan
  | FF.inf => FF.inf
  | FF.fin q => if q < 0 then FF.nan else if q = 0 then FF.fin 0 else FF.fin (sqrtB32 q)

/-- IEEE greater-than on the model (false whenever NaN is involved). -/
def FF.gt : FF → FF → Bool
  | FF.nan, _ => false
  | _, FF.nan => false
  | FF.inf, FF.inf => false
  | FF.inf, _ => true
  | FF.neginf, _ => false
  | FF.fin _, FF.inf => false
  | FF.fin _, FF.neginf => true
  | FF.fin p, FF.fin q => decide (q < p)

/-- Finiteness test on the model. -/
def FF.isFinite : FF → Bool
  | FF.fin _ => true
  | _ => false

/-- Non-negativity test on the model (`+inf` counts as non-negative,
NaN does not). -/
def FF.nonnegB : FF → Bool
  | FF.fin q => decide (0 ≤ q)
  | FF.inf => true
  | _ => false

/-!
Embedding of the two source files.  A vector buffer is a `List FF`; the
`int len` argument of the C functions is an `ℤ`.  Every buffer access
the code makes is also recorded in a trace of effects (`Eff`), so that
the frame and bounds claims can be stated; an access whose index is out
of the list's range reads the default `FF.fin 0` in the model (in the C
sources such an access is undefined behaviour, so no claim is settled
on it without the lane-width precondition).  The `for` loops are
embedded as fuelled structural recursions; the fuel `len.toNat + 1` is
strictly larger than the number of iterations of every loop (which
steps by 1 or by 4), so the recursion always exits through the loop
condition, exactly like the source.
-/

/-- Which buffer an access touches: first argument, second argument, or
the in-place vector of `normalize`. -/
inductive Buf
  | A
  | B
  | V
  deriving DecidableEq

/-- A memory effect of one run: a load or a store at an element index. -/
inductive Eff
  | load (b : Buf) (i : ℤ)
  | store (b : Buf) (i : ℤ)
  deriving DecidableEq

/-- The element index of an effect. -/
def Eff.idx : Eff → ℤ
  | Eff.load _ i => i
  | Eff.store _ i => i

/-- Whether an effect is a store. -/
def Eff.isStore : Eff → Bool
  | Eff.load _ _ => false
  | Eff.store _ _ => true

/-- Read element `i` of a buffer (out-of-range reads the default). -/
def getF (l : List FF) (i : ℤ) : FF := l.getD i.toNat (FF.fin 0)

/-- Write element `i` of a buffer (out-of-range writes are dropped,
like `List.set`). -/
def setF (l : List FF) (i : ℤ) (x : FF) : List FF := l.set i.toNat x

/-- A `v128` of four float lanes. -/
def V4 : Type := FF × FF × FF × FF

/-- `wasm_f32x4_splat`. -/
def splat4 (x : FF) : V4 := (x, x, x, x)

/-- `wasm_v128_load` of lanes `i, i+1, i+2, i+3`. -/
def load4 (l : List FF) (i : ℤ) : V4 :=
  (getF l i, getF l (i + 1), getF l (i + 2), getF l (i + 3))

/-- Trace of the four loads of a `wasm_v128_load` at index `i`. -/
def loadEffs4 (b : Buf) (i : ℤ) : List Eff :=
  [Eff.load b i, Eff.load b (i + 1), Eff.load b (i + 2), Eff.load b (i + 3)]

/-- Trace of the four stores of a `wasm_v128_store` at index `i`. -/
def storeEffs4 (b : Buf) (i : ℤ) : List Eff :=
  [Eff.store b i, Eff.store b (i + 1), Eff.store b (i + 2), Eff.store b (i + 3)]

/-- `wasm_f32x4_add`. -/
def addV4 (x y : V4) : V4 :=
  (FF.add x.1 y.1, FF.add x.2.1 y.2.1, FF.add x.2.2.1 y.2.2.1, FF.add x.2.2.2 y.2.2.2)

/-- `wasm_f32x4_sub`. -/
def subV4 (x y : V4) : V4 :=
  (FF.sub x.1 y.1, FF.sub x.2.1 y.2.1, FF.sub x.2.2.1 y.2.2.1, FF.sub x.2.2.2 y.2.2.2)

/-- `wasm_f32x4_mul`. -/
def mulV4 (x y : V4) : V4 :=
  (FF.mul x.1 y.1, FF.mul x.2.1 y.2.1, FF.mul x.2.2.1 y.2.2.1, FF.mul x.2.2.2 y.2.2.2)

/-- The horizontal combine of `vector_simd.c`: extract the four lanes
and add them left to right. -/
def hsum4 (s : V4) : FF := FF.add (FF.add (FF.add s.1 s.2.1) s.2.2.1) s.2.2.2

/-- Loop of `euclideanDistance` in `vector_simd.c` (lines 8-13):
`for (i = 0; i < len; i += 4)` loading `a` and `b`, squaring the lane
difference and accumulating per lane. -/
def distLoopC (a b : List FF) (len : ℤ) : ℕ → ℤ → V4 × List Eff → V4 × List Eff
  | 0, _, st => st
  | f + 1, i, st =>
    if i < len then
      let va := load4 a i
      let vb := load4 b i
      let d := subV4 va vb
      distLoopC a b len f (i + 4)
        (addV4 st.1 (mulV4 d d), st.2 ++ loadEffs4 Buf.A i ++ loadEffs4 Buf.B i)
    else st

/-- `euclideanDistance` of `vector_simd.c` (lines 6-20): lane
accumulation, one horizontal combine, then `__builtin_sqrtf`. -/
def euclideanDistanceC (a b : List FF) (len : ℤ) : FF × List Eff :=
  let st := distLoopC a b len (len.toNat + 1) 0 (splat4 (FF.fin 0), [])
  (FF.sqrtF (hsum4 st.1), st.2)

/-- Loop of `cosineSimilarity` in `vector_simd.c` (lines 27-33): one
pass accumulating `dot`, `normA`, `normB` per lane. -/
def cosLoopC (a b : List FF) (len : ℤ) :
    ℕ → ℤ → V4 × V4 × V4 × List Eff → V4 × V4 × V4 × List Eff
  | 0, _, st => st
  | f + 1, i, st =>
    if i < len then
      let va := load4 a i
      let vb := load4 b i
      cosLoopC a b len f (i + 4)
        (addV4 st.1 (mulV4 va vb), addV4 st.2.1 (mulV4 va va), addV4 st.2.2.1 (mulV4 vb vb),
         st.2.2.2 ++ loadEffs4 Buf.A i ++ loadEffs4 Buf.B i)
    else st

/-- `cosineSimilarity` of `vector_simd.c` (lines 22-50): three
horizontal combines, then `dot / (sqrtf(normA) * sqrtf(normB))`. -/
def cosineSimilarityC (a b : List FF) (len : ℤ) : FF × List Eff :=
  let st := cosLoopC a b len (len.toNat + 1) 0
    (splat4 (FF.fin 0), splat4 (FF.fin 0), splat4 (FF.fin 0), [])
  (FF.div (hsum4 st.1) (FF.mul (FF.sqrtF (hsum4 st.2.1)) (FF.sqrtF (hsum4 st.2.2.1))), st.2.2.2)

/-- Denominator of the final division of `cosineSimilarity` in
`vector_simd.c` (line 49): `sqrtf(normASum) * sqrtf(normBSum)`. -/
def cosineDenomC (a b : List FF) (len : ℤ) : FF :=
  let st := cosLoopC a b len (len.toNat + 1) 0
    (splat4 (FF.fin 0), splat4 (FF.fin 0), splat4 (FF.fin 0), [])
  FF.mul (FF.sqrtF (hsum4 st.2.1)) (FF.sqrtF (hsum4 st.2.2.1))

/-- The `normASum` scalar of `cosineSimilarity` in `vector_simd.c`
(lines 39-43): the horizontal combine of the `normA` lane accumulator,
the accumulated sum of squares of `a`. -/
def cosineNormASumC (a b : List FF) (len : ℤ) : FF :=
  let st := cosLoopC a b len (len.toNat + 1) 0
    (splat4 (FF.fin 0), splat4 (FF.fin 0), splat4 (FF.fin 0), [])
  hsum4 st.2.1

/-- The `normBSum` scalar of `cosineSimilarity` in `vector_simd.c`
(lines 44-48): the horizontal combine of the `normB` lane accumulator,
the accumulated sum of squares of `b`. -/
def cosineNormBSumC (a b : List FF) (len : ℤ) : FF :=
  let st := cosLoopC a b len (len.toNat + 1) 0
    (splat4 (FF.fin 0), splat4 (FF.fin 0), splat4 (FF.fin 0), [])
  hsum4 st.2.2.1

/-- First loop of `normalize` in `vector_simd.c` (lines 55-58): lane
accumulation of squares of `v`. -/
def sumSqLoopC (v : List FF) (len : ℤ) : ℕ → ℤ → V4 × List Eff → V4 × List Eff
  | 0, _, st => st
  | f + 1, i, st =>
    if i < len then
      let x := load4 v i
      sumSqLoopC v len f (i + 4) (addV4 st.1 (mulV4 x x), st.2 ++ loadEffs4 Buf.V i)
    else st

/-- The scalar norm computed by `normalize` in `vector_simd.c`
(lines 59-64): horizontal combine then `__builtin_sqrtf`. -/
def normValueC (v : List FF) (len : ℤ) : FF :=
  FF.sqrtF (hsum4 (sumSqLoopC v len (len.toNat + 1) 0 (splat4 (FF.fin 0), [])).1)

/-- Second loop of `normalize` in `vector_simd.c` (lines 66-69): load
four lanes of `v`, multiply by the splatted scale, store them back. -/
def scaleLoopC (len : ℤ) (scale : FF) : ℕ → ℤ → List FF × List Eff → List FF × List Eff
  | 0, _, st => st
  | f + 1, i, st =>
    if i < len then
      let w := st.1
      let x0 := getF w i
      let x1 := getF w (i + 1)
      let x2 := getF w (i + 2)
      let x3 := getF w (i + 3)
      let w' := setF (setF (setF (setF w i (FF.mul x0 scale)) (i + 1) (FF.mul x1 scale))
        (i + 2) (FF.mul x2 scale)) (i + 3) (FF.mul x3 scale)
      scaleLoopC len scale f (i + 4) (w', st.2 ++ loadEffs4 Buf.V i ++ storeEffs4 Buf.V i)
    else st

/-- `normalize` of `vector_simd.c` (lines 52-70): compute the norm,
splat `1.0f / norm`, and scale every lane group unconditionally. -/
def normalizeC (v : List FF) (len : ℤ) : List FF × List Eff :=
  let st := sumSqLoopC v len (len.toNat + 1) 0 (splat4 (FF.fin 0), [])
  let norm := FF.sqrtF (hsum4 st.1)
  let scale := FF.div (FF.fin 1) norm
  scaleLoopC len scale (len.toNat + 1) 0 (v, st.2)

/-- Loop of `euclideanDistance` in `vector_simd.cpp` (lines 13-18):
serial `for (i = 0; i < len; i++)`, `sum += diff * diff`. -/
def distLoopCpp (a b : List FF) (len : ℤ) : ℕ → ℤ → FF × List Eff → FF × List Eff
  | 0, _, st => st
  | f + 1, i, st =>
    if i < len then
      let d := FF.sub (getF a i) (getF b i)
      distLoopCpp a b len f (i + 1)
        (FF.add st.1 (FF.mul d d), st.2 ++ [Eff.load Buf.A i, Eff.load Buf.B i])
    else st

/-- `euclideanDistance` of `vector_simd.cpp` (lines 12-20): serial
left-to-right sum, then `std::sqrt`. -/
def euclideanDistanceCpp (a b : List FF) (len : ℤ) : FF × List Eff :=
  let st := distLoopCpp a b len (len.toNat + 1) 0 (FF.fin 0, [])
  (FF.sqrtF st.1, st.2)

/-- Loop of `cosineSimilarity` in `vector_simd.cpp` (lines 26-30):
serial accumulation of `dot`, `normA`, `normB`. -/
def cosLoopCpp (a b : List FF) (len : ℤ) :
    ℕ → ℤ → FF × FF × FF × List Eff → FF × FF × FF × List Eff
  | 0, _, st => st
  | f + 1, i, st =>
    if i < len then
      let x := getF a i
      let y := getF b i
      cosLoopCpp a b len f (i + 1)
        (FF.add st.1 (FF.mul x y), FF.add st.2.1 (FF.mul x x), FF.add st.2.2.1 (FF.mul y y),
         st.2.2.2 ++ [Eff.load Buf.A i, Eff.load Buf.B i])
    else st

/-- `cosineSimilarity` of `vector_simd.cpp` (lines 23-32):
`dot / (std::sqrt(normA) * std::sqrt(normB))`. -/
def cosineSimilarityCpp (a b : List FF) (len : ℤ) : FF × List Eff :=
  let st := cosLoopCpp a b len (len.toNat + 1) 0 (FF.fin 0, FF.fin 0, FF.fin 0, [])
  (FF.div st.1 (FF.mul (FF.sqrtF st.2.1) (FF.sqrtF st.2.2.1)), st.2.2.2)

/-- Denominator of the final division of `cosineSimilarity` in
`vector_simd.cpp` (line 31): `std::sqrt(normA) * std::sqrt(normB)`. -/
def cosineDenomCpp (a b : List FF) (len : ℤ) : FF :=
  let st := cosLoopCpp a b len (len.toNat + 1) 0 (FF.fin 0, FF.fin 0, FF.fin 0, [])
  FF.mul (FF.sqrtF st.2.1) (FF.sqrtF st.2.2.1)

/-- The accumulated `normA` of `cosineSimilarity` in `vector_simd.cpp`
(lines 24-30): the sum of squares of `a`. -/
def cosineNormASumCpp (a b : List FF) (len : ℤ) : FF :=
  (cosLoopCpp a b len (len.toNat + 1) 0 (FF.fin 0, FF.fin 0, FF.fin 0, [])).2.1

/-- The accumulated `normB` of `cosineSimilarity` in `vector_simd.cpp`
(lines 24-30): the sum of squares of `b`. -/
def cosineNormBSumCpp (a b : List FF) (len : ℤ) : FF :=
  (cosLoopCpp a b len (len.toNat + 1) 0 (FF.fin 0, FF.fin 0, FF.fin 0, [])).2.2.1

/-- First loop of `normalize` in `vector_simd.cpp` (lines 37-40):
serial `sum += v[i] * v[i]`. -/
def sumSqLoopCpp (v : List FF) (len : ℤ) : ℕ → ℤ → FF × List Eff → FF × List Eff
  | 0, _, st => st
  | f + 1, i, st =>
    if i < len then
      let x := getF v i
      sumSqLoopCpp v len f (i + 1) (FF.add st.1 (FF.mul x x), st.2 ++ [Eff.load Buf.V i])
    else st

/-- The scalar norm computed by `normalize` in `vector_simd.cpp`
(line 41). -/
def normValueCpp (v : List FF) (len : ℤ) : FF :=
  FF.sqrtF (sumSqLoopCpp v len (len.toNat + 1) 0 (FF.fin 0, [])).1

/-- Guarded scaling loop of `normalize` in `vector_simd.cpp`
(lines 44-46): `v[i] /= norm` in place. -/
def divLoopCpp (len : ℤ) (norm : FF) : ℕ → ℤ → List FF × List Eff → List FF × List Eff
  | 0, _, st => st
  | f + 1, i, st =>
    if i < len then
      let w := st.1
      let w' := setF w i (FF.div (getF w i) norm)
      divLoopCpp len norm f (i + 1)
        (w', st.2 ++ [Eff.load Buf.V i, Eff.store Buf.V i])
    else st

/-- `normalize` of `vector_simd.cpp` (lines 35-48): compute the norm
and scale only under the guard `norm > 0.0f`. -/
def normalizeCpp (v : List FF) (len : ℤ) : List FF × List Eff :=
  let st := sumSqLoopCpp v len (len.toNat + 1) 0 (FF.fin 0, [])
  let norm := FF.sqrtF st.1
  if FF.gt norm (FF.fin 0) then divLoopCpp len norm (len.toNat + 1) 0 (v, st.2)
  else (v, st.2)

/-- The all-zero vector of a given (integer) length. -/
def zerosV (n : ℤ) : List FF := List.replicate n.toNat (FF.fin 0)

/-- Every entry of a buffer is a finite float. -/
def allFin (l : List FF) : Prop := ∀ x ∈ l, x.isFinite = true

instance (l : List FF) : Decidable (allFin l) := by
  unfold allFin; infer_instance

/-- Exact sum of squares of the finite entries of a buffer (used only
to state norm-tolerance properties of buffers all of whose entries are
finite). -/
def l2sqQ : List FF → ℚ
  | [] => 0
  | FF.fin q :: t => q * q + l2sqQ t
  | _ :: t => l2sqQ t

/-- Values that are exactly zero or NaN: the only values the
accumulators of `cosineSimilarity` can take on the side of a zero input
vector. -/
def isZN (x : FF) : Prop := x = FF.fin 0 ∨ x = FF.nan

/-- All four lanes of a `v128` accumulator are non-negative. -/
def V4nonneg (s : V4) : Prop :=
  s.1.nonnegB = true ∧ s.2.1.nonnegB = true ∧ s.2.2.1.nonnegB = true ∧ s.2.2.2.nonnegB = true

/-- All four lanes are zero-or-NaN. -/
def V4ZN (s : V4) : Prop := isZN s.1 ∧ isZN s.2.1 ∧ isZN s.2.2.1 ∧ isZN s.2.2.2

/-- Non-negative or NaN: every value a sum-of-squares accumulator can
take (each added square is non-negative, `+inf`, or NaN). -/
def isNNN (x : FF) : Prop := x.nonnegB = true ∨ x = FF.nan

/-- All four lanes non-negative-or-NaN. -/
def V4NNN (s : V4) : Prop := isNNN s.1 ∧ isNNN s.2.1 ∧ isNNN s.2.2.1 ∧ isNNN s.2.2.2

/-- Real-number (exact rational) model of the spec's reduction orders
(§4 "Vectorization strategy"): the naive left-to-right serial sum of
per-index addends, as the loop of `vector_simd.cpp` computes it but in
exact arithmetic.  `serialSumSqQ d i c s` adds `d i, d (i+1), ...`
(`c` addends) to the accumulator `s`, strictly left to right. -/
def serialSumSqQ (d : ℕ → ℚ) : ℕ → ℕ → ℚ → ℚ
  | _, 0, s => s
  | i, c + 1, s => serialSumSqQ d (i + 1) c (s + d i)

/-- Real-number (exact rational) model of the lane reduction of
`vector_simd.c`: four lane accumulators advanced four indices per
group.  `laneSumSqQ d i g s` processes `g` lane groups starting at
index `i`. -/
def laneSumSqQ (d : ℕ → ℚ) : ℕ → ℕ → ℚ × ℚ × ℚ × ℚ → ℚ × ℚ × ℚ × ℚ
  | _, 0, s => s
  | i, g + 1, s =>
    laneSumSqQ d (i + 4) g
      (s.1 + d i, s.2.1 + d (i + 1), s.2.2.1 + d (i + 2), s.2.2.2 + d (i + 3))

/-- Exact horizontal combine: lane 0 + lane 1 + lane 2 + lane 3, left
to right. -/
def hsumQ (s : ℚ × ℚ × ℚ × ℚ) : ℚ := s.1 + s.2.1 + s.2.2.1 + s.2.2.2

/-- The concrete vector `[3, 4, 0, 0]` of the spec's scenario 2. -/
def v34 : List FF := [FF.fin 3, FF.fin 4, FF.fin 0, FF.fin 0]

/-- What `normalize` turns `[3, 4, 0, 0]` into: `[fl(3/5), fl(4/5), 0, 0]`
written with reduced binary32 mantissas. -/
def w34 : List FF :=
  [FF.fin (5033165 / 8388608), FF.fin (13421773 / 16777216), FF.fin 0, FF.fin 0]

/-- A nonzero vector all of whose squared entries underflow to `0`. -/
def vTiny : List FF := [FF.fin (1 / 2 ^ 100), FF.fin 0, FF.fin 0, FF.fin 0]

/-- A length-8 vector on which the two reduction orders round
differently: the serial sum of squares sticks at `2^24` while the lane
sums keep the three extra `2`s. -/
def v8diff : List FF :=
  [FF.fin 4096, FF.fin 1, FF.fin 1, FF.fin 1, FF.fin 1, FF.fin 1, FF.fin 1, FF.fin 1]

/-!
Basic facts about the rounding primitives and the model operations,
used by the loop invariants below.
-/

theorem pow2_pos (e : ℤ) : 0 < pow2 e := by
  unfold pow2
  split
  · exact_mod_cast pow_pos (by norm_num : (0 : ℕ) < 2) e.toNat
  · have h2 : (0 : ℚ) < ((2 ^ (-e).toNat : ℕ) : ℚ) :=
      by exact_mod_cast pow_pos (by norm_num : (0 : ℕ) < 2) (-e).toNat
    exact div_pos one_pos h2

theorem qfloor_nonneg (q : ℚ) (h : 0 ≤ q) : 0 ≤ qfloor q := by
  unfold qfloor
  exact Int.fdiv_nonneg (Rat.num_nonneg.mpr h) (Int.ofNat_nonneg q.den)

theorem rneZ_nonneg (q : ℚ) (h : 0 ≤ q) : 0 ≤ rneZ q := by
  simp only [rneZ]
  have h0 := qfloor_nonneg q h
  split
  · exact h0
  · split
    · omega
    · split
      · exact h0
      · omega

theorem roundScaled_nonneg (s : ℤ) (q : ℚ) (h : 0 ≤ q) : 0 ≤ roundScaled s q := by
  simp only [roundScaled]
  have h1 : 0 ≤ rneZ (q / pow2 s) :=
    rneZ_nonneg _ (div_nonneg h (le_of_lt (pow2_pos s)))
  exact mul_nonneg (by exact_mod_cast h1) (le_of_lt (pow2_pos s))

theorem roundB32_zero : roundB32 0 = FF.fin 0 := by
  simp only [roundB32]
  simp

theorem roundB32_nonneg (q : ℚ) (h : 0 ≤ q) : (roundB32 q).nonnegB = true := by
  simp only [roundB32]
  split
  · simp only [FF.nonnegB]
    exact decide_eq_true le_rfl
  · split
    · split
      · rfl
      · rename_i hq _ hpos
        exact absurd (lt_of_le_of_ne h (Ne.symm hq)) hpos
    · simp only [FF.nonnegB]
      exact decide_eq_true (roundScaled_nonneg _ _ h)

theorem roundB32_ne_nan (q : ℚ) : roundB32 q ≠ FF.nan := by
  simp only [roundB32]
  split
  · simp
  · split
    · split <;> simp
    · simp

theorem sqrtB32_nonneg (q : ℚ) : 0 ≤ sqrtB32 q := by
  simp only [sqrtB32]
  exact mul_nonneg (by positivity) (le_of_lt (pow2_pos _))

theorem ffAdd_nonneg {x y : FF} (hx : x.nonnegB = true) (hy : y.nonnegB = true) :
    (FF.add x y).nonnegB = true := by
  cases x with
  | nan => exact absurd hx (by simp [FF.nonnegB])
  | neginf => exact absurd hx (by simp [FF.nonnegB])
  | inf =>
    cases y with
    | nan => exact absurd hy (by simp [FF.nonnegB])
    | neginf => exact absurd hy (by simp [FF.nonnegB])
    | inf => rfl
    | fin q => rfl
  | fin p =>
    cases y with
    | nan => exact absurd hy (by simp [FF.nonnegB])
    | neginf => exact absurd hy (by simp [FF.nonnegB])
    | inf => rfl
    | fin q =>
      have hp : 0 ≤ p := by simpa [FF.nonnegB] using hx
      have hq : 0 ≤ q := by simpa [FF.nonnegB] using hy
      exact roundB32_nonneg _ (add_nonneg hp hq)

theorem ffSq_nonneg {x : FF} (hx : x ≠ FF.nan) : (FF.mul x x).nonnegB = true := by
  cases x
  · exact roundB32_nonneg _ (mul_self_nonneg _)
  · rfl
  · rfl
  · exact absurd rfl hx

theorem ffSub_ne_nan {x y : FF} (hx : x.isFinite = true) (hy : y.isFinite = true) :
    FF.sub x y ≠ FF.nan := by
  cases x <;> cases y <;> simp_all [FF.isFinite]
  exact roundB32_ne_nan _

theorem ffSqrtF_nonneg {x : FF} (hx : x.nonnegB = true) : (x.sqrtF).nonnegB = true := by
  cases x
  case inf => rfl
  case neginf => exact absurd hx (by simp [FF.nonnegB])
  case nan => exact absurd hx (by simp [FF.nonnegB])
  case fin q =>
    have hq : 0 ≤ q := by simpa [FF.nonnegB] using hx
    simp only [FF.sqrtF]
    split
    · rename_i hlt
      exact absurd hlt (not_lt.mpr hq)
    · split
      · simp only [FF.nonnegB]
        exact decide_eq_true le_rfl
      · simp only [FF.nonnegB]
        exact decide_eq_true (sqrtB32_nonneg q)

theorem ffSub_self_fin (q : ℚ) : FF.sub (FF.fin q) (FF.fin q) = FF.fin 0 := by
  show roundB32 (q - q) = FF.fin 0
  rw [sub_self]
  exact roundB32_zero

theorem ffMul_zero_zero : FF.mul (FF.fin 0) (FF.fin 0) = FF.fin 0 := by
  show roundB32 (0 * 0) = FF.fin 0
  rw [mul_zero]
  exact roundB32_zero

theorem ffAdd_zero_zero : FF.add (FF.fin 0) (FF.fin 0) = FF.fin 0 := by
  show roundB32 (0 + 0) = FF.fin 0
  rw [add_zero]
  exact roundB32_zero

theorem ffSqrtF_zero : FF.sqrtF (FF.fin 0) = FF.fin 0 := by
  simp [FF.sqrtF]

theorem ffMul_comm (x y : FF) : FF.mul x y = FF.mul y x := by
  cases x <;> cases y <;> simp [FF.mul, mul_comm]

theorem getF_zeros (n : ℤ) (i : ℤ) : getF (zerosV n) i = FF.fin 0 := by
  simp only [getF, zerosV, List.getD_eq_getElem?_getD, List.getElem?_replicate]
  split <;> rfl

theorem getF_isFinite {l : List FF} (hl : allFin l) (i : ℤ) : (getF l i).isFinite = true := by
  simp only [getF, List.getD_eq_getElem?_getD]
  cases h : l[i.toNat]? with
  | none => rfl
  | some x =>
    obtain ⟨hlt, he⟩ := List.getElem?_eq_some_iff.mp h
    exact hl x (he ▸ List.getElem_mem hlt)

theorem ffMul_zero_left (y : FF) : isZN (FF.mul (FF.fin 0) y) := by
  cases y with
  | fin q =>
    left
    show roundB32 (0 * q) = FF.fin 0
    rw [zero_mul]
    exact roundB32_zero
  | inf => right; simp [FF.mul]
  | neginf => right; simp [FF.mul]
  | nan => right; rfl

theorem ffMul_zero_right (x : FF) : isZN (FF.mul x (FF.fin 0)) := by
  rw [ffMul_comm]
  exact ffMul_zero_left x

theorem ffAdd_ZN {x y : FF} (hx : isZN x) (hy : isZN y) : isZN (FF.add x y) := by
  rcases hx with hx | hx <;> rcases hy with hy | hy <;> subst hx <;> subst hy
  · left; exact ffAdd_zero_zero
  · right; rfl
  · right; rfl
  · right; rfl

theorem ffDiv_ZN_nan {x y : FF} (hx : isZN x) (hy : isZN y) : FF.div x y = FF.nan := by
  rcases hx with hx | hx <;> rcases hy with hy | hy <;> subst hx <;> subst hy <;>
    simp [FF.div]

theorem ffMul_ZN_right {x y : FF} (hy : isZN y) : isZN (FF.mul x y) := by
  rcases hy with hy | hy <;> subst hy
  · exact ffMul_zero_right x
  · right; cases x <;> rfl

theorem ffMul_ZN_left {x y : FF} (hx : isZN x) : isZN (FF.mul x y) := by
  rw [ffMul_comm]
  exact ffMul_ZN_right hx

theorem loadEffs4_noStore (bf : Buf) (i : ℤ) : ∀ e ∈ loadEffs4 bf i, e.isStore = false := by
  intro e he
  simp only [loadEffs4, List.mem_cons, List.mem_singleton] at he
  rcases he with h | h | h | h | h <;> first | (subst h; rfl) | exact absurd h (List.not_mem_nil e)

theorem distLoopC_noStore (a b : List FF) (len : ℤ) :
    ∀ (f : ℕ) (i : ℤ) (st : V4 × List Eff),
      (∀ e ∈ st.2, e.isStore = false) →
      ∀ e ∈ (distLoopC a b len f i st).2, e.isStore = false := by
  intro f
  induction f with
  | zero => exact fun i st h => h
  | succ f ih =>
    intro i st h e he
    rw [distLoopC] at he
    split at he
    · refine ih _ _ ?_ e he
      intro e' he'
      simp only [List.mem_append] at he'
      rcases he' with (h' | h') | h'
      · exact h e' h'
      · exact loadEffs4_noStore _ _ e' h'
      · exact loadEffs4_noStore _ _ e' h'
    · exact h e he

theorem cosLoopC_noStore (a b : List FF) (len : ℤ) :
    ∀ (f : ℕ) (i : ℤ) (st : V4 × V4 × V4 × List Eff),
      (∀ e ∈ st.2.2.2, e.isStore = false) →
      ∀ e ∈ (cosLoopC a b len f i st).2.2.2, e.isStore = false := by
  intro f
  induction f with
  | zero => exact fun i st h => h
  | succ f ih =>
    intro i st h e he
    rw [cosLoopC] at he
    split at he
    · refine ih _ _ ?_ e he
      intro e' he'
      simp only [List.mem_append] at he'
      rcases he' with (h' | h') | h'
      · exact h e' h'
      · exact loadEffs4_noStore _ _ e' h'
      · exact loadEffs4_noStore _ _ e' h'
    · exact h e he

theorem distLoopCpp_noStore (a b : List FF) (len : ℤ) :
    ∀ (f : ℕ) (i : ℤ) (st : FF × List Eff),
      (∀ e ∈ st.2, e.isStore = false) →
      ∀ e ∈ (distLoopCpp a b len f i st).2, e.isStore = false := by
  intro f
  induction f with
  | zero => exact fun i st h => h
  | succ f ih =>
    intro i st h e he
    rw [distLoopCpp] at he
    split at he
    · refine ih _ _ ?_ e he
      intro e' he'
      simp only [List.mem_append, List.mem_cons, List.not_mem_nil, or_false] at he'
      rcases he' with h' | h' | h'
      · exact h e' h'
      · subst h'; rfl
      · subst h'; rfl
    · exact h e he

theorem cosLoopCpp_noStore (a b : List FF) (len : ℤ) :
    ∀ (f : ℕ) (i : ℤ) (st : FF × FF × FF × List Eff),
      (∀ e ∈ st.2.2.2, e.isStore = false) →
      ∀ e ∈ (cosLoopCpp a b len f i st).2.2.2, e.isStore = false := by
  intro f
  induction f with
  | zero => exact fun i st h => h
  | succ f ih =>
    intro i st h e he
    rw [cosLoopCpp] at he
    split at he
    · refine ih _ _ ?_ e he
      intro e' he'
      simp only [List.mem_append, List.mem_cons, List.not_mem_nil, or_false] at he'
      rcases he' with h' | h' | h'
      · exact h e' h'
      · subst h'; rfl
      · subst h'; rfl
    · exact h e he

theorem loadEffs4_idx (bf : Buf) (i : ℤ) :
    ∀ e ∈ loadEffs4 bf i, i ≤ e.idx ∧ e.idx ≤ i + 3 := by
  intro e he
  simp only [loadEffs4, List.mem_cons, List.mem_singleton] at he
  rcases he with h | h | h | h | h <;>
    first
      | (subst h; refine ⟨?_, ?_⟩ <;> (simp only [Eff.idx]; omega))
      | exact absurd h (List.not_mem_nil e)

theorem storeEffs4_idx (bf : Buf) (i : ℤ) :
    ∀ e ∈ storeEffs4 bf i, i ≤ e.idx ∧ e.idx ≤ i + 3 := by
  intro e he
  simp only [storeEffs4, List.mem_cons, List.mem_singleton] at he
  rcases he with h | h | h | h | h <;>
    first
      | (subst h; refine ⟨?_, ?_⟩ <;> (simp only [Eff.idx]; omega))
      | exact absurd h (List.not_mem_nil e)

theorem distLoopC_bounds (a b : List FF) (len : ℤ) (h4len : 4 ∣ len) :
    ∀ (f : ℕ) (i : ℤ) (st : V4 × List Eff),
      0 ≤ i → 4 ∣ i →
      (∀ e ∈ st.2, 0 ≤ e.idx ∧ e.idx < len) →
      ∀ e ∈ (distLoopC a b len f i st).2, 0 ≤ e.idx ∧ e.idx < len := by
  intro f
  induction f with
  | zero => exact fun i st _ _ h => h
  | succ f ih =>
    intro i st hi h4i h e he
    rw [distLoopC] at he
    split at he
    · rename_i hlt
      refine ih (i + 4) _ (by omega) (by omega) ?_ e he
      intro e' he'
      simp only [List.mem_append] at he'
      rcases he' with (h' | h') | h'
      · exact h e' h'
      · obtain ⟨h1, h2⟩ := loadEffs4_idx _ _ e' h'
        omega
      · obtain ⟨h1, h2⟩ := loadEffs4_idx _ _ e' h'
        omega
    · exact h e he

theorem cosLoopC_bounds (a b : List FF) (len : ℤ) (h4len : 4 ∣ len) :
    ∀ (f : ℕ) (i : ℤ) (st : V4 × V4 × V4 × List Eff),
      0 ≤ i → 4 ∣ i →
      (∀ e ∈ st.2.2.2, 0 ≤ e.idx ∧ e.idx < len) →
      ∀ e ∈ (cosLoopC a b len f i st).2.2.2, 0 ≤ e.idx ∧ e.idx < len := by
  intro f
  induction f with
  | zero => exact fun i st _ _ h => h
  | succ f ih =>
    intro i st hi h4i h e he
    rw [cosLoopC] at he
    split at he
    · rename_i hlt
      refine ih (i + 4) _ (by omega) (by omega) ?_ e he
      intro e' he'
      simp only [List.mem_append] at he'
      rcases he' with (h' | h') | h'
      · exact h e' h'
      · obtain ⟨h1, h2⟩ := loadEffs4_idx _ _ e' h'
        omega
      · obtain ⟨h1, h2⟩ := loadEffs4_idx _ _ e' h'
        omega
    · exact h e he

theorem sumSqLoopC_bounds (v : List FF) (len : ℤ) (h4len : 4 ∣ len) :
    ∀ (f : ℕ) (i : ℤ) (st : V4 × List Eff),
      0 ≤ i → 4 ∣ i →
      (∀ e ∈ st.2, 0 ≤ e.idx ∧ e.idx < len) →
      ∀ e ∈ (sumSqLoopC v len f i st).2, 0 ≤ e.idx ∧ e.idx < len := by
  intro f
  induction f with
  | zero => exact fun i st _ _ h => h
  | succ f ih =>
    intro i st hi h4i h e he
    rw [sumSqLoopC] at he
    split at he
    · rename_i hlt
      refine ih (i + 4) _ (by omega) (by omega) ?_ e he
      intro e' he'
      simp only [List.mem_append] at he'
      rcases he' with h' | h'
      · exact h e' h'
      · obtain ⟨h1, h2⟩ := loadEffs4_idx _ _ e' h'
        omega
    · exact h e he

theorem scaleLoopC_bounds (len : ℤ) (scale : FF) (h4len : 4 ∣ len) :
    ∀ (f : ℕ) (i : ℤ) (st : List FF × List Eff),
      0 ≤ i → 4 ∣ i →
      (∀ e ∈ st.2, 0 ≤ e.idx ∧ e.idx < len) →
      ∀ e ∈ (scaleLoopC len scale f i st).2, 0 ≤ e.idx ∧ e.idx < len := by
  intro f
  induction f with
  | zero => exact fun i st _ _ h => h
  | succ f ih =>
    intro i st hi h4i h e he
    rw [scaleLoopC] at he
    split at he
    · rename_i hlt
      refine ih (i + 4) _ (by omega) (by omega) ?_ e he
      intro e' he'
      simp only [List.mem_append] at he'
      rcases he' with (h' | h') | h'
      · exact h e' h'
      · obtain ⟨h1, h2⟩ := loadEffs4_idx _ _ e' h'
        omega
      · obtain ⟨h1, h2⟩ := storeEffs4_idx _ _ e' h'
        omega
    · exact h e he

theorem mulV4_comm (x y : V4) : mulV4 x y = mulV4 y x := by
  simp [mulV4, ffMul_comm]

theorem cosLoopC_swap (a b : List FF) (len : ℤ) :
    ∀ (f : ℕ) (i : ℤ) (d na nb : V4) (tr : List Eff),
      cosLoopC a b len f i (d, na, nb, tr)
        = (fun st => (st.1, st.2.2.1, st.2.1, st.2.2.2)) (cosLoopC b a len f i (d, nb, na, tr)) := by
  intro f
  induction f with
  | zero => intro i d na nb tr; rfl
  | succ f ih =>
    intro i d na nb tr
    simp only [cosLoopC]
    by_cases hc : i < len
    · simp only [if_pos hc]
      rw [ih, mulV4_comm (load4 a i) (load4 b i)]
    · simp only [if_neg hc]

theorem cosLoopCpp_swap (a b : List FF) (len : ℤ) :
    ∀ (f : ℕ) (i : ℤ) (d na nb : FF) (tr : List Eff),
      cosLoopCpp a b len f i (d, na, nb, tr)
        = (fun st => (st.1, st.2.2.1, st.2.1, st.2.2.2)) (cosLoopCpp b a len f i (d, nb, na, tr)) := by
  intro f
  induction f with
  | zero => intro i d na nb tr; rfl
  | succ f ih =>
    intro i d na nb tr
    simp only [cosLoopCpp]
    by_cases hc : i < len
    · simp only [if_pos hc]
      rw [ih, ffMul_comm (getF a i) (getF b i)]
    · simp only [if_neg hc]

theorem cosC_comm (a b : List FF) (len : ℤ) :
    cosineSimilarityC a b len = cosineSimilarityC b a len := by
  simp only [cosineSimilarityC]
  rw [cosLoopC_swap a b len]
  rw [ffMul_comm]

theorem cosCpp_comm (a b : List FF) (len : ℤ) :
    cosineSimilarityCpp a b len = cosineSimilarityCpp b a len := by
  simp only [cosineSimilarityCpp]
  rw [cosLoopCpp_swap a b len]
  rw [ffMul_comm]

theorem cosDenomC_comm (a b : List FF) (len : ℤ) :
    cosineDenomC a b len = cosineDenomC b a len := by
  simp only [cosineDenomC]
  rw [cosLoopC_swap a b len]
  rw [ffMul_comm]

theorem cosDenomCpp_comm (a b : List FF) (len : ℤ) :
    cosineDenomCpp a b len = cosineDenomCpp b a len := by
  simp only [cosineDenomCpp]
  rw [cosLoopCpp_swap a b len]
  rw [ffMul_comm]

theorem ffFin0_nonneg : (FF.fin 0).nonnegB = true := by
  simp [FF.nonnegB]

theorem splat4_zero_nonneg : V4nonneg (splat4 (FF.fin 0)) :=
  ⟨ffFin0_nonneg, ffFin0_nonneg, ffFin0_nonneg, ffFin0_nonneg⟩

theorem hsum4_nonneg {s : V4} (h : V4nonneg s) : (hsum4 s).nonnegB = true :=
  ffAdd_nonneg (ffAdd_nonneg (ffAdd_nonneg h.1 h.2.1) h.2.2.1) h.2.2.2

theorem hsum4_zero : hsum4 (splat4 (FF.fin 0)) = FF.fin 0 := by
  simp only [hsum4, splat4]
  rw [ffAdd_zero_zero, ffAdd_zero_zero, ffAdd_zero_zero]

theorem ffSub_self {x : FF} (hx : x.isFinite = true) : FF.sub x x = FF.fin 0 := by
  cases x <;> simp [FF.isFinite] at hx ⊢
  exact ffSub_self_fin _

theorem distLoopC_nonneg (a b : List FF) (len : ℤ) (ha : allFin a) (hb : allFin b) :
    ∀ (f : ℕ) (i : ℤ) (st : V4 × List Eff),
      V4nonneg st.1 → V4nonneg (distLoopC a b len f i st).1 := by
  intro f
  induction f with
  | zero => exact fun i st h => h
  | succ f ih =>
    intro i st hst
    rw [distLoopC]
    split
    · apply ih
      obtain ⟨h1, h2, h3, h4⟩ := hst
      simp only [V4nonneg, addV4, mulV4, subV4, load4]
      refine ⟨ffAdd_nonneg h1 (ffSq_nonneg ?_), ffAdd_nonneg h2 (ffSq_nonneg ?_),
              ffAdd_nonneg h3 (ffSq_nonneg ?_), ffAdd_nonneg h4 (ffSq_nonneg ?_)⟩ <;>
        exact ffSub_ne_nan (getF_isFinite ha _) (getF_isFinite hb _)
    · exact hst

theorem distLoopCpp_nonneg (a b : List FF) (len : ℤ) (ha : allFin a) (hb : allFin b) :
    ∀ (f : ℕ) (i : ℤ) (st : FF × List Eff),
      st.1.nonnegB = true → ((distLoopCpp a b len f i st).1).nonnegB = true := by
  intro f
  induction f with
  | zero => exact fun i st h => h
  | succ f ih =>
    intro i st hst
    rw [distLoopCpp]
    split
    · apply ih
      exact ffAdd_nonneg hst
        (ffSq_nonneg (ffSub_ne_nan (getF_isFinite ha _) (getF_isFinite hb _)))
    · exact hst

theorem distLoopC_self (a : List FF) (len : ℤ) (ha : allFin a) :
    ∀ (f : ℕ) (i : ℤ) (st : V4 × List Eff),
      st.1 = splat4 (FF.fin 0) → (distLoopC a a len f i st).1 = splat4 (FF.fin 0) := by
  intro f
  induction f with
  | zero => exact fun i st h => h
  | succ f ih =>
    intro i st hst
    rw [distLoopC]
    split
    · apply ih
      show addV4 st.1 _ = _
      rw [hst]
      simp only [addV4, mulV4, subV4, load4, splat4]
      rw [ffSub_self (getF_isFinite ha _), ffSub_self (getF_isFinite ha _),
          ffSub_self (getF_isFinite ha _), ffSub_self (getF_isFinite ha _)]
      rw [ffMul_zero_zero, ffAdd_zero_zero]
    · exact hst

theorem distLoopCpp_self (a : List FF) (len : ℤ) (ha : allFin a) :
    ∀ (f : ℕ) (i : ℤ) (st : FF × List Eff),
      st.1 = FF.fin 0 → (distLoopCpp a a len f i st).1 = FF.fin 0 := by
  intro f
  induction f with
  | zero => exact fun i st h => h
  | succ f ih =>
    intro i st hst
    rw [distLoopCpp]
    split
    · apply ih
      show FF.add st.1 _ = _
      rw [hst, ffSub_self (getF_isFinite ha _), ffMul_zero_zero, ffAdd_zero_zero]
    · exact hst

theorem sumSqLoopC_zeros (n len : ℤ) :
    ∀ (f : ℕ) (i : ℤ) (st : V4 × List Eff),
      st.1 = splat4 (FF.fin 0) → (sumSqLoopC (zerosV n) len f i st).1 = splat4 (FF.fin 0) := by
  intro f
  induction f with
  | zero => exact fun i st h => h
  | succ f ih =>
    intro i st hst
    rw [sumSqLoopC]
    split
    · apply ih
      show addV4 st.1 _ = _
      rw [hst]
      simp only [addV4, mulV4, load4, splat4, getF_zeros]
      rw [ffMul_zero_zero, ffAdd_zero_zero]
    · exact hst

theorem sumSqLoopCpp_zeros (n len : ℤ) :
    ∀ (f : ℕ) (i : ℤ) (st : FF × List Eff),
      st.1 = FF.fin 0 → (sumSqLoopCpp (zerosV n) len f i st).1 = FF.fin 0 := by
  intro f
  induction f with
  | zero => exact fun i st h => h
  | succ f ih =>
    intro i st hst
    rw [sumSqLoopCpp]
    split
    · apply ih
      show FF.add st.1 _ = _
      rw [hst, getF_zeros, ffMul_zero_zero, ffAdd_zero_zero]
    · exact hst

theorem splat4_zero_ZN : V4ZN (splat4 (FF.fin 0)) :=
  ⟨Or.inl rfl, Or.inl rfl, Or.inl rfl, Or.inl rfl⟩

theorem hsum4_ZN {s : V4} (h : V4ZN s) : isZN (hsum4 s) :=
  ffAdd_ZN (ffAdd_ZN (ffAdd_ZN h.1 h.2.1) h.2.2.1) h.2.2.2

theorem cosLoopC_zeroA (n : ℤ) (b : List FF) (len : ℤ) :
    ∀ (f : ℕ) (i : ℤ) (d na nb : V4) (tr : List Eff),
      V4ZN d → na = splat4 (FF.fin 0) →
      V4ZN (cosLoopC (zerosV n) b len f i (d, na, nb, tr)).1 ∧
        (cosLoopC (zerosV n) b len f i (d, na, nb, tr)).2.1 = splat4 (FF.fin 0) := by
  intro f
  induction f with
  | zero => exact fun i d na nb tr hd hna => ⟨hd, hna⟩
  | succ f ih =>
    intro i d na nb tr hd hna
    rw [cosLoopC]
    split
    · apply ih
      · obtain ⟨h1, h2, h3, h4⟩ := hd
        simp only [V4ZN, addV4, mulV4, load4, getF_zeros]
        exact ⟨ffAdd_ZN h1 (ffMul_zero_left _), ffAdd_ZN h2 (ffMul_zero_left _),
               ffAdd_ZN h3 (ffMul_zero_left _), ffAdd_ZN h4 (ffMul_zero_left _)⟩
      · rw [hna]
        simp only [addV4, mulV4, load4, getF_zeros, splat4]
        rw [ffMul_zero_zero, ffAdd_zero_zero]
    · exact ⟨hd, hna⟩

theorem cosLoopCpp_zeroA (n : ℤ) (b : List FF) (len : ℤ) :
    ∀ (f : ℕ) (i : ℤ) (d na nb : FF) (tr : List Eff),
      isZN d → na = FF.fin 0 →
      isZN (cosLoopCpp (zerosV n) b len f i (d, na, nb, tr)).1 ∧
        (cosLoopCpp (zerosV n) b len f i (d, na, nb, tr)).2.1 = FF.fin 0 := by
  intro f
  induction f with
  | zero => exact fun i d na nb tr hd hna => ⟨hd, hna⟩
  | succ f ih =>
    intro i d na nb tr hd hna
    rw [cosLoopCpp]
    split
    · apply ih
      · show isZN (FF.add d (FF.mul (getF (zerosV n) i) (getF b i)))
        rw [getF_zeros]
        exact ffAdd_ZN hd (ffMul_zero_left _)
      · show FF.add na (FF.mul (getF (zerosV n) i) (getF (zerosV n) i)) = FF.fin 0
        rw [hna, getF_zeros, ffMul_zero_zero, ffAdd_zero_zero]
    · exact ⟨hd, hna⟩

theorem cosC_zeroA_nan (n : ℤ) (b : List FF) (len : ℤ) :
    (cosineSimilarityC (zerosV n) b len).1 = FF.nan := by
  simp only [cosineSimilarityC]
  obtain ⟨hd, hna⟩ :=
    cosLoopC_zeroA n b len (len.toNat + 1) 0 (splat4 (FF.fin 0)) (splat4 (FF.fin 0))
      (splat4 (FF.fin 0)) [] splat4_zero_ZN rfl
  apply ffDiv_ZN_nan (hsum4_ZN hd)
  rw [hna, hsum4_zero, ffSqrtF_zero]
  exact ffMul_zero_left _

theorem cosCpp_zeroA_nan (n : ℤ) (b : List FF) (len : ℤ) :
    (cosineSimilarityCpp (zerosV n) b len).1 = FF.nan := by
  simp only [cosineSimilarityCpp]
  obtain ⟨hd, hna⟩ :=
    cosLoopCpp_zeroA n b len (len.toNat + 1) 0 (FF.fin 0) (FF.fin 0) (FF.fin 0) []
      (Or.inl rfl) rfl
  apply ffDiv_ZN_nan hd
  rw [hna, ffSqrtF_zero]
  exact ffMul_zero_left _

theorem cosDenomC_zeroA_ZN (n : ℤ) (b : List FF) (len : ℤ) :
    isZN (cosineDenomC (zerosV n) b len) := by
  simp only [cosineDenomC]
  obtain ⟨hd, hna⟩ :=
    cosLoopC_zeroA n b len (len.toNat + 1) 0 (splat4 (FF.fin 0)) (splat4 (FF.fin 0))
      (splat4 (FF.fin 0)) [] splat4_zero_ZN rfl
  rw [hna, hsum4_zero, ffSqrtF_zero]
  exact ffMul_zero_left _

theorem cosDenomCpp_zeroA_ZN (n : ℤ) (b : List FF) (len : ℤ) :
    isZN (cosineDenomCpp (zerosV n) b len) := by
  simp only [cosineDenomCpp]
  obtain ⟨hd, hna⟩ :=
    cosLoopCpp_zeroA n b len (len.toNat + 1) 0 (FF.fin 0) (FF.fin 0) (FF.fin 0) []
      (Or.inl rfl) rfl
  rw [hna, ffSqrtF_zero]
  exact ffMul_zero_left _

theorem getD_set_self (w : List FF) (k : ℕ) (x d : FF) (h : k < w.length) :
    (w.set k x).getD k d = x := by
  simp [List.getD_eq_getElem?_getD, List.getElem?_set_self h]

theorem getD_set_ne (w : List FF) (k j : ℕ) (x d : FF) (h : k ≠ j) :
    (w.set k x).getD j d = w.getD j d := by
  simp [List.getD_eq_getElem?_getD, List.getElem?_set_ne h]

theorem ffMul_zero_inf : FF.mul (FF.fin 0) FF.inf = FF.nan := by
  simp [FF.mul]

theorem ffGt_zero_zero : FF.gt (FF.fin 0) (FF.fin 0) = false := by
  simp [FF.gt]

theorem set4_getD_out (w : List FF) (i : ℤ) (x : FF) (h0 : 0 ≤ i) (jn : ℕ)
    (hj : jn < i.toNat ∨ i.toNat + 3 < jn) :
    (setF (setF (setF (setF w i x) (i + 1) x) (i + 2) x) (i + 3) x).getD jn (FF.fin 0)
      = w.getD jn (FF.fin 0) := by
  simp only [setF]
  have e1 : (i + 1).toNat = i.toNat + 1 := by omega
  have e2 : (i + 2).toNat = i.toNat + 2 := by omega
  have e3 : (i + 3).toNat = i.toNat + 3 := by omega
  rw [e1, e2, e3]
  rw [getD_set_ne _ _ _ _ _ (by omega), getD_set_ne _ _ _ _ _ (by omega),
      getD_set_ne _ _ _ _ _ (by omega), getD_set_ne _ _ _ _ _ (by omega)]

theorem set4_getD_in (w : List FF) (i : ℤ) (x : FF) (h0 : 0 ≤ i) (jn : ℕ)
    (hlo : i.toNat ≤ jn) (hhi : jn ≤ i.toNat + 3) (hlen : jn < w.length) :
    (setF (setF (setF (setF w i x) (i + 1) x) (i + 2) x) (i + 3) x).getD jn (FF.fin 0)
      = x := by
  simp only [setF]
  have e1 : (i + 1).toNat = i.toNat + 1 := by omega
  have e2 : (i + 2).toNat = i.toNat + 2 := by omega
  have e3 : (i + 3).toNat = i.toNat + 3 := by omega
  rw [e1, e2, e3]
  have hj4 : jn = i.toNat ∨ jn = i.toNat + 1 ∨ jn = i.toNat + 2 ∨ jn = i.toNat + 3 := by omega
  rcases hj4 with h | h | h | h <;> subst h
  · rw [getD_set_ne _ _ _ _ _ (by omega), getD_set_ne _ _ _ _ _ (by omega),
        getD_set_ne _ _ _ _ _ (by omega), getD_set_self _ _ _ _ (by simpa using hlen)]
  · rw [getD_set_ne _ _ _ _ _ (by omega), getD_set_ne _ _ _ _ _ (by omega),
        getD_set_self _ _ _ _ (by simpa using hlen)]
  · rw [getD_set_ne _ _ _ _ _ (by omega),
        getD_set_self _ _ _ _ (by simpa using hlen)]
  · rw [getD_set_self _ _ _ _ (by simpa using hlen)]

theorem scaleLoopC_inf (len : ℤ) :
    ∀ (f : ℕ) (i : ℤ) (w : List FF) (tr : List Eff),
      0 ≤ i →
      len ≤ i + 4 * f →
      len ≤ (w.length : ℤ) →
      (∀ jn : ℕ, (jn : ℤ) < i → (jn : ℤ) < len → w.getD jn (FF.fin 0) = FF.nan) →
      (∀ jn : ℕ, i ≤ (jn : ℤ) → w.getD jn (FF.fin 0) = FF.fin 0) →
      ∀ jn : ℕ, (jn : ℤ) < len →
        ((scaleLoopC len FF.inf f i (w, tr)).1).getD jn (FF.fin 0) = FF.nan := by
  intro f
  induction f with
  | zero =>
    intro i w tr h0 hfuel hlen inv1 _ jn hj
    exact inv1 jn (by omega) hj
  | succ f ih =>
    intro i w tr h0 hfuel hlen inv1 inv2 jn hj
    rw [scaleLoopC]
    split
    · rename_i hc
      dsimp only
      have e0 : getF w i = FF.fin 0 := inv2 i.toNat (by omega)
      have e1 : getF w (i + 1) = FF.fin 0 := inv2 (i + 1).toNat (by omega)
      have e2 : getF w (i + 2) = FF.fin 0 := inv2 (i + 2).toNat (by omega)
      have e3 : getF w (i + 3) = FF.fin 0 := inv2 (i + 3).toNat (by omega)
      rw [e0, e1, e2, e3, ffMul_zero_inf]
      refine ih (i + 4) _ _ (by omega) (by omega) ?_ ?_ ?_ jn hj
      · simp only [setF, List.length_set]
        exact hlen
      · intro kn hk1 hk2
        by_cases hk : (kn : ℤ) < i
        · rw [set4_getD_out _ _ _ h0 _ (by omega)]
          exact inv1 kn hk hk2
        · exact set4_getD_in _ _ _ h0 _ (by omega) (by omega) (by omega)
      · intro kn hk
        rw [set4_getD_out _ _ _ h0 _ (by omega)]
        exact inv2 kn (by omega)
    · exact inv1 jn (by omega) hj

theorem serialSumSqQ_congr (d : ℕ → ℚ) (c : ℕ) (i i' : ℕ) (s s' : ℚ)
    (hi : i = i') (hs : s = s') : serialSumSqQ d i c s = serialSumSqQ d i' c s' := by
  subst hi; subst hs; rfl

theorem laneSumSqQ_eq_serial (d : ℕ → ℚ) :
    ∀ (g : ℕ) (i : ℕ) (s0 s1 s2 s3 acc : ℚ), acc = s0 + s1 + s2 + s3 →
      hsumQ (laneSumSqQ d i g (s0, s1, s2, s3)) = serialSumSqQ d i (4 * g) acc := by
  intro g
  induction g with
  | zero =>
    intro i s0 s1 s2 s3 acc h
    simp only [Nat.mul_zero, laneSumSqQ, serialSumSqQ, hsumQ]
    exact h.symm
  | succ g ih =>
    intro i s0 s1 s2 s3 acc h
    rw [laneSumSqQ]
    dsimp only
    rw [ih (i + 4) (s0 + d i) (s1 + d (i + 1)) (s2 + d (i + 2)) (s3 + d (i + 3)) _ rfl]
    have e : 4 * (g + 1) = 4 * g + 1 + 1 + 1 + 1 := by ring
    rw [e]
    have step : ∀ (k c : ℕ) (s : ℚ),
        serialSumSqQ d k (c + 1) s = serialSumSqQ d (k + 1) c (s + d k) := fun _ _ _ => rfl
    rw [step, step, step, step]
    have m2 : i + 1 + 1 = i + 2 := by omega
    have m3 : i + 2 + 1 = i + 3 := by omega
    have m4 : i + 3 + 1 = i + 4 := by omega
    rw [m2, m3, m4]
    exact serialSumSqQ_congr d (4 * g) _ _ _ _ rfl (by rw [h]; ring)

theorem zerosV_getD (n : ℤ) (j : ℕ) : (zerosV n).getD j (FF.fin 0) = FF.fin 0 := by
  simp only [zerosV, List.getD_eq_getElem?_getD, List.getElem?_replicate]
  split <;> rfl

theorem ffAdd_nan_right (x : FF) : FF.add x FF.nan = FF.nan := by
  cases x <;> rfl

theorem ffSq_NNN (x : FF) : isNNN (FF.mul x x) := by
  cases x
  · exact Or.inl (roundB32_nonneg _ (mul_self_nonneg _))
  · exact Or.inl rfl
  · exact Or.inl rfl
  · exact Or.inr rfl

theorem ffAdd_NNN {x y : FF} (hx : isNNN x) (hy : isNNN y) : isNNN (FF.add x y) := by
  rcases hx with hx | hx
  · rcases hy with hy | hy
    · exact Or.inl (ffAdd_nonneg hx hy)
    · subst hy
      exact Or.inr (ffAdd_nan_right x)
  · subst hx
    exact Or.inr (by cases y <;> rfl)

theorem splat4_zero_NNN : V4NNN (splat4 (FF.fin 0)) :=
  ⟨Or.inl ffFin0_nonneg, Or.inl ffFin0_nonneg, Or.inl ffFin0_nonneg, Or.inl ffFin0_nonneg⟩

theorem hsum4_NNN {s : V4} (h : V4NNN s) : isNNN (hsum4 s) :=
  ffAdd_NNN (ffAdd_NNN (ffAdd_NNN h.1 h.2.1) h.2.2.1) h.2.2.2

theorem cosLoopC_nb_NNN (a b : List FF) (len : ℤ) :
    ∀ (f : ℕ) (i : ℤ) (st : V4 × V4 × V4 × List Eff),
      V4NNN st.2.2.1 → V4NNN (cosLoopC a b len f i st).2.2.1 := by
  intro f
  induction f with
  | zero => exact fun i st h => h
  | succ f ih =>
    intro i st h
    rw [cosLoopC]
    split
    · apply ih
      obtain ⟨h1, h2, h3, h4⟩ := h
      simp only [V4NNN, addV4, mulV4, load4]
      exact ⟨ffAdd_NNN h1 (ffSq_NNN _), ffAdd_NNN h2 (ffSq_NNN _),
             ffAdd_NNN h3 (ffSq_NNN _), ffAdd_NNN h4 (ffSq_NNN _)⟩
    · exact h

theorem cosLoopCpp_nb_NNN (a b : List FF) (len : ℤ) :
    ∀ (f : ℕ) (i : ℤ) (st : FF × FF × FF × List Eff),
      isNNN st.2.2.1 → isNNN (cosLoopCpp a b len f i st).2.2.1 := by
  intro f
  induction f with
  | zero => exact fun i st h => h
  | succ f ih =>
    intro i st h
    rw [cosLoopCpp]
    split
    · apply ih
      show isNNN (FF.add st.2.2.1 (FF.mul (getF b i) (getF b i)))
      exact ffAdd_NNN h (ffSq_NNN _)
    · exact h

theorem ffMul_zero_fin (r : ℚ) : FF.mul (FF.fin 0) (FF.fin r) = FF.fin 0 := by
  show roundB32 (0 * r) = FF.fin 0
  rw [zero_mul]
  exact roundB32_zero

theorem ffMul_zero_nan : FF.mul (FF.fin 0) FF.nan = FF.nan := by
  simp [FF.mul]

theorem ffMul_zero_sqrt_cases {x : FF} (h : isNNN x) :
    (x.isFinite = true → FF.mul (FF.fin 0) (FF.sqrtF x) = FF.fin 0) ∧
    (x.isFinite = false → FF.mul (FF.fin 0) (FF.sqrtF x) = FF.nan) := by
  cases x with
  | fin q =>
    refine ⟨fun _ => ?_, fun hfin => by simp [FF.isFinite] at hfin⟩
    have hq0 : 0 ≤ q := by
      rcases h with h | h
      · simpa [FF.nonnegB] using h
      · exact absurd h (by simp)
    simp only [FF.sqrtF]
    rw [if_neg (not_lt.mpr hq0)]
    split
    · exact ffMul_zero_zero
    · exact ffMul_zero_fin _
  | inf => exact ⟨fun hfin => by simp [FF.isFinite] at hfin, fun _ => ffMul_zero_inf⟩
  | neginf =>
    rcases h with h | h
    · exact absurd h (by simp [FF.nonnegB])
    · exact absurd h (by simp)
  | nan => exact ⟨fun hfin => by simp [FF.isFinite] at hfin, fun _ => ffMul_zero_nan⟩

theorem cosDenomC_zeroA_cases (n : ℤ) (b : List FF) (len : ℤ) :
    ((cosineNormBSumC (zerosV n) b len).isFinite = true →
      cosineDenomC (zerosV n) b len = FF.fin 0) ∧
    ((cosineNormBSumC (zerosV n) b len).isFinite = false →
      cosineDenomC (zerosV n) b len = FF.nan) := by
  have hna := (cosLoopC_zeroA n b len (len.toNat + 1) 0 (splat4 (FF.fin 0))
    (splat4 (FF.fin 0)) (splat4 (FF.fin 0)) [] splat4_zero_ZN rfl).2
  have hnb : isNNN (cosineNormBSumC (zerosV n) b len) := by
    simp only [cosineNormBSumC]
    exact hsum4_NNN (cosLoopC_nb_NNN (zerosV n) b len _ 0 _ splat4_zero_NNN)
  have hden : cosineDenomC (zerosV n) b len
      = FF.mul (FF.fin 0) (FF.sqrtF (cosineNormBSumC (zerosV n) b len)) := by
    simp only [cosineDenomC, cosineNormBSumC]
    rw [hna, hsum4_zero, ffSqrtF_zero]
  rw [hden]
  exact ffMul_zero_sqrt_cases hnb

theorem cosDenomCpp_zeroA_cases (n : ℤ) (b : List FF) (len : ℤ) :
    ((cosineNormBSumCpp (zerosV n) b len).isFinite = true →
      cosineDenomCpp (zerosV n) b len = FF.fin 0) ∧
    ((cosineNormBSumCpp (zerosV n) b len).isFinite = false →
      cosineDenomCpp (zerosV n) b len = FF.nan) := by
  have hna := (cosLoopCpp_zeroA n b len (len.toNat + 1) 0 (FF.fin 0) (FF.fin 0)
    (FF.fin 0) [] (Or.inl rfl) rfl).2
  have hnb : isNNN (cosineNormBSumCpp (zerosV n) b len) := by
    simp only [cosineNormBSumCpp]
    exact cosLoopCpp_nb_NNN (zerosV n) b len _ 0 _ (Or.inl ffFin0_nonneg)
  have hden : cosineDenomCpp (zerosV n) b len
      = FF.mul (FF.fin 0) (FF.sqrtF (cosineNormBSumCpp (zerosV n) b len)) := by
    simp only [cosineDenomCpp, cosineNormBSumCpp]
    rw [hna, ffSqrtF_zero]
  rw [hden]
  exact ffMul_zero_sqrt_cases hnb

theorem cosNormASumC_swap (a b : List FF) (len : ℤ) :
    cosineNormASumC a b len = cosineNormBSumC b a len := by
  simp only [cosineNormASumC, cosineNormBSumC]
  rw [cosLoopC_swap a b len]

theorem cosNormASumCpp_swap (a b : List FF) (len : ℤ) :
    cosineNormASumCpp a b len = cosineNormBSumCpp b a len := by
  simp only [cosineNormASumCpp, cosineNormBSumCpp]
  rw [cosLoopCpp_swap a b len]

theorem roundB32_threeFifths : roundB32 (3 / 5) = FF.fin (5033165 / 8388608) := by
  with_unfolding_all rfl

theorem roundB32_fourFifths : roundB32 (4 / 5) = FF.fin (13421773 / 16777216) := by
  with_unfolding_all rfl

set_option maxRecDepth 20000 in
theorem normC_v34_eval : (normalizeC v34 4).1 = w34 := by
  with_unfolding_all rfl

set_option maxRecDepth 20000 in
theorem normCpp_v34_eval : (normalizeCpp v34 4).1 = w34 := by
  with_unfolding_all rfl

set_option maxRecDepth 20000 in
set_option maxHeartbeats 1000000 in
theorem normC_w34_eval : (normalizeC w34 4).1 = w34 := by
  with_unfolding_all rfl

set_option maxRecDepth 20000 in
set_option maxHeartbeats 1000000 in
theorem normCpp_w34_eval : (normalizeCpp w34 4).1 = w34 := by
  with_unfolding_all rfl

set_option maxRecDepth 20000 in
theorem normValueC_v34 : normValueC v34 4 = FF.fin 5 := by
  with_unfolding_all rfl

set_option maxRecDepth 20000 in
theorem normValueCpp_v34 : normValueCpp v34 4 = FF.fin 5 := by
  with_unfolding_all rfl

set_option maxRecDepth 40000 in
set_option maxHeartbeats 1000000 in
theorem distC_v8_eval : (euclideanDistanceC v8diff (zerosV 8) 8).1 = FF.fin (8388609 / 2048) := by
  with_unfolding_all rfl

set_option maxRecDepth 40000 in
set_option maxHeartbeats 1000000 in
theorem distCpp_v8_eval : (euclideanDistanceCpp v8diff (zerosV 8) 8).1 = FF.fin 4096 := by
  with_unfolding_all rfl

set_option maxRecDepth 20000 in
theorem distC_tiny_eval : (euclideanDistanceC vTiny (zerosV 4) 4).1 = FF.fin 0 := by
  with_unfolding_all rfl

set_option maxRecDepth 20000 in
theorem normCpp_tiny_eval : (normalizeCpp vTiny 4).1 = vTiny := by
  with_unfolding_all rfl

set_option maxRecDepth 20000 in
theorem denomCpp_overflow_eval : cosineDenomCpp (zerosV 1) [FF.fin (2 ^ 64)] 1 = FF.nan := by
  with_unfolding_all rfl

set_option maxRecDepth 20000 in
theorem normC_zeros4_eval : (normalizeC (zerosV 4) 4).1 = [FF.nan, FF.nan, FF.nan, FF.nan] := by
  with_unfolding_all rfl

theorem normCpp_zeros4_eval : (normalizeCpp (zerosV 4) 4).1 = zerosV 4 := by
  with_unfolding_all rfl

/-- C1: on a zero vector of positive length a multiple of 4, `normalize`
of vector_simd.cpp leaves every element unchanged (its `norm > 0.0f`
guard fails at norm = 0), while `normalize` of vector_simd.c scales
unconditionally by `1.0f / 0 = +inf` so every element becomes
`0 * inf = NaN`; hence the two `normalize` implementations are not
equivalent on zero-norm inputs. -/
theorem c1_zero_norm_guard :
    (∀ n : ℤ, 0 < n → 4 ∣ n →
      (normalizeCpp (zerosV n) n).1 = zerosV n ∧
      ∀ jn : ℕ, jn < n.toNat → ((normalizeC (zerosV n) n).1).getD jn (FF.fin 0) = FF.nan) ∧
    (normalizeC (zerosV 4) 4).1 ≠ (normalizeCpp (zerosV 4) 4).1 := by
  constructor
  · intro n hn h4
    constructor
    · have hz := sumSqLoopCpp_zeros n n (n.toNat + 1) 0 (FF.fin 0, []) rfl
      simp only [normalizeCpp]
      rw [hz, ffSqrtF_zero, ffGt_zero_zero]
      simp
    · intro jn hjn
      have hz := sumSqLoopC_zeros n n (n.toNat + 1) 0 (splat4 (FF.fin 0), []) rfl
      simp only [normalizeC]
      rw [hz, hsum4_zero, ffSqrtF_zero]
      have hs : FF.div (FF.fin 1) (FF.fin 0) = FF.inf := by simp [FF.div]
      rw [hs]
      refine scaleLoopC_inf n (n.toNat + 1) 0 (zerosV n) _ le_rfl (by omega) ?_ ?_ ?_ jn
        (by omega)
      · simp only [zerosV, List.length_replicate]
        omega
      · intro kn hk1 _
        omega
      · intro kn _
        exact zerosV_getD n kn
  · rw [normC_zeros4_eval, normCpp_zeros4_eval]
    decide

/-- C1 witness at `n = 4`. -/
theorem c1_zero_norm_guard_witness :
    (0 : ℤ) < 4 ∧ (4 : ℤ) ∣ 4 ∧
      (normalizeCpp (zerosV 4) 4).1 = zerosV 4 ∧
      ((normalizeC (zerosV 4) 4).1).getD 0 (FF.fin 0) = FF.nan :=
  ⟨by norm_num, by norm_num,
   (c1_zero_norm_guard.1 4 (by norm_num) (by norm_num)).1,
   (c1_zero_norm_guard.1 4 (by norm_num) (by norm_num)).2 0 (by norm_num)⟩

set_option maxRecDepth 40000 in
/-- C2 counterexample: the squared difference of `2^-100` and `0`
underflows to `0`, so `euclideanDistance` returns exactly `0` on two
vectors that are not element-wise identical; the claim's "equals 0 only
when identical" direction is false on the code. -/
theorem c2_distance_cex :
    (euclideanDistanceC vTiny (zerosV 4) 4).1 = FF.fin 0 ∧ vTiny ≠ zerosV 4 :=
  ⟨distC_tiny_eval, by with_unfolding_all decide⟩

/-- C2 amended: for buffers whose entries are all finite floats and a
valid lane-multiple length, the result of both `euclideanDistance`
implementations is non-negative (possibly `+inf`), and on two identical
buffers it is exactly `0`; the converse ("0 only if identical") fails
by underflow (see the counterexample). -/
theorem c2_distance_amended (a b : List FF) (len : ℤ) (_hlen : 0 ≤ len) (_h4 : 4 ∣ len)
    (ha : allFin a) (hb : allFin b) :
    ((euclideanDistanceC a b len).1).nonnegB = true ∧
    ((euclideanDistanceCpp a b len).1).nonnegB = true ∧
    (euclideanDistanceC a a len).1 = FF.fin 0 ∧
    (euclideanDistanceCpp a a len).1 = FF.fin 0 := by
  refine ⟨?_, ?_, ?_, ?_⟩
  · simp only [euclideanDistanceC]
    exact ffSqrtF_nonneg (hsum4_nonneg (distLoopC_nonneg a b len ha hb _ 0 _ splat4_zero_nonneg))
  · simp only [euclideanDistanceCpp]
    exact ffSqrtF_nonneg (distLoopCpp_nonneg a b len ha hb _ 0 _ ffFin0_nonneg)
  · simp only [euclideanDistanceC]
    rw [distLoopC_self a len ha _ 0 _ rfl, hsum4_zero, ffSqrtF_zero]
  · simp only [euclideanDistanceCpp]
    rw [distLoopCpp_self a len ha _ 0 _ rfl, ffSqrtF_zero]

/-- C2 witness at concrete finite vectors of length 4. -/
theorem c2_distance_amended_witness :
    (0 : ℤ) ≤ 4 ∧ (4 : ℤ) ∣ 4 ∧
      allFin [FF.fin 1, FF.fin 2, FF.fin 3, FF.fin 4] ∧ allFin (zerosV 4) ∧
      (((euclideanDistanceC [FF.fin 1, FF.fin 2, FF.fin 3, FF.fin 4] (zerosV 4) 4).1).nonnegB
          = true ∧
        ((euclideanDistanceCpp [FF.fin 1, FF.fin 2, FF.fin 3, FF.fin 4] (zerosV 4) 4).1).nonnegB
          = true ∧
        (euclideanDistanceC [FF.fin 1, FF.fin 2, FF.fin 3, FF.fin 4]
            [FF.fin 1, FF.fin 2, FF.fin 3, FF.fin 4] 4).1 = FF.fin 0 ∧
        (euclideanDistanceCpp [FF.fin 1, FF.fin 2, FF.fin 3, FF.fin 4]
            [FF.fin 1, FF.fin 2, FF.fin 3, FF.fin 4] 4).1 = FF.fin 0) :=
  ⟨by norm_num, by norm_num, by decide, by decide,
   c2_distance_amended [FF.fin 1, FF.fin 2, FF.fin 3, FF.fin 4] (zerosV 4) 4
     (by norm_num) (by norm_num) (by decide) (by decide)⟩

/-- C3: both implementations of `cosineSimilarity` are commutative in
their two vector arguments, returning exactly the same value (the dot
product is accumulated with commutative per-element multiplications and
the two norms merely swap roles inside the commutative final
multiplication). -/
theorem c3_cosine_commutative (a b : List FF) (len : ℤ) :
    cosineSimilarityC a b len = cosineSimilarityC b a len ∧
    cosineSimilarityCpp a b len = cosineSimilarityCpp b a len :=
  ⟨cosC_comm a b len, cosCpp_comm a b len⟩

/-- C4 counterexample: with the zero vector `[0]` and the other vector
`[2^64]`, the accumulated `normB` overflows to `+inf`, so the
denominator `sqrtf(normA) * sqrtf(normB) = 0 * inf` is NaN, not 0: the
claim's "the denominator of the final division is 0" is false as
stated. -/
theorem c4_zero_vector_cex :
    cosineDenomCpp (zerosV 1) [FF.fin (2 ^ 64)] 1 = FF.nan ∧ FF.nan ≠ FF.fin 0 :=
  ⟨denomCpp_overflow_eval, by decide⟩

/-- C4 amended: if either input of `cosineSimilarity` is the zero
vector (positive lane-multiple length), the returned value is NaN (a
non-finite value, not a guarded sentinel, and no error is signaled);
the denominator of the final division is `0` whenever the other
vector's accumulated sum of squares is finite, and is NaN whenever
that sum is non-finite (overflow or NaN input). -/
theorem c4_zero_vector_amended (n : ℤ) (b : List FF) (_hn : 0 < n) (_h4 : 4 ∣ n) :
    (cosineSimilarityC (zerosV n) b n).1 = FF.nan ∧
    (cosineSimilarityC b (zerosV n) n).1 = FF.nan ∧
    (cosineSimilarityCpp (zerosV n) b n).1 = FF.nan ∧
    (cosineSimilarityCpp b (zerosV n) n).1 = FF.nan ∧
    ((cosineNormBSumC (zerosV n) b n).isFinite = true →
      cosineDenomC (zerosV n) b n = FF.fin 0) ∧
    ((cosineNormBSumC (zerosV n) b n).isFinite = false →
      cosineDenomC (zerosV n) b n = FF.nan) ∧
    ((cosineNormASumC b (zerosV n) n).isFinite = true →
      cosineDenomC b (zerosV n) n = FF.fin 0) ∧
    ((cosineNormASumC b (zerosV n) n).isFinite = false →
      cosineDenomC b (zerosV n) n = FF.nan) ∧
    ((cosineNormBSumCpp (zerosV n) b n).isFinite = true →
      cosineDenomCpp (zerosV n) b n = FF.fin 0) ∧
    ((cosineNormBSumCpp (zerosV n) b n).isFinite = false →
      cosineDenomCpp (zerosV n) b n = FF.nan) ∧
    ((cosineNormASumCpp b (zerosV n) n).isFinite = true →
      cosineDenomCpp b (zerosV n) n = FF.fin 0) ∧
    ((cosineNormASumCpp b (zerosV n) n).isFinite = false →
      cosineDenomCpp b (zerosV n) n = FF.nan) := by
  refine ⟨cosC_zeroA_nan n b n, ?_, cosCpp_zeroA_nan n b n, ?_,
          (cosDenomC_zeroA_cases n b n).1, (cosDenomC_zeroA_cases n b n).2, ?_, ?_,
          (cosDenomCpp_zeroA_cases n b n).1, (cosDenomCpp_zeroA_cases n b n).2, ?_, ?_⟩
  · rw [cosC_comm]
    exact cosC_zeroA_nan n b n
  · rw [cosCpp_comm]
    exact cosCpp_zeroA_nan n b n
  · rw [cosNormASumC_swap, cosDenomC_comm]
    exact (cosDenomC_zeroA_cases n b n).1
  · rw [cosNormASumC_swap, cosDenomC_comm]
    exact (cosDenomC_zeroA_cases n b n).2
  · rw [cosNormASumCpp_swap, cosDenomCpp_comm]
    exact (cosDenomCpp_zeroA_cases n b n).1
  · rw [cosNormASumCpp_swap, cosDenomCpp_comm]
    exact (cosDenomCpp_zeroA_cases n b n).2

/-- C4 witness at `n = 4`, `b = [1, 1, 1, 1]`: the returned value is
NaN, the accumulated `normB` sum is the finite value 4, and the
denominator is exactly 0. -/
theorem c4_zero_vector_amended_witness :
    (0 : ℤ) < 4 ∧ (4 : ℤ) ∣ 4 ∧
      (cosineSimilarityC (zerosV 4) [FF.fin 1, FF.fin 1, FF.fin 1, FF.fin 1] 4).1 = FF.nan ∧
      (cosineNormBSumC (zerosV 4) [FF.fin 1, FF.fin 1, FF.fin 1, FF.fin 1] 4).isFinite
        = true ∧
      cosineDenomC (zerosV 4) [FF.fin 1, FF.fin 1, FF.fin 1, FF.fin 1] 4 = FF.fin 0 :=
  ⟨by norm_num, by norm_num,
   (c4_zero_vector_amended 4 [FF.fin 1, FF.fin 1, FF.fin 1, FF.fin 1]
     (by norm_num) (by norm_num)).1,
   by with_unfolding_all rfl,
   (c4_zero_vector_amended 4 [FF.fin 1, FF.fin 1, FF.fin 1, FF.fin 1]
     (by norm_num) (by norm_num)).2.2.2.2.1 (by with_unfolding_all rfl)⟩

/-- C5: `euclideanDistance` and `cosineSimilarity` are read-only in
both implementations: their access traces contain loads only, never a
store; `normalize` by contrast does mutate its buffer (shown at the
concrete vector `[3,4,0,0]`). -/
theorem c5_read_only :
    (∀ (a b : List FF) (len : ℤ),
      (∀ e ∈ (euclideanDistanceC a b len).2, e.isStore = false) ∧
      (∀ e ∈ (cosineSimilarityC a b len).2, e.isStore = false) ∧
      (∀ e ∈ (euclideanDistanceCpp a b len).2, e.isStore = false) ∧
      (∀ e ∈ (cosineSimilarityCpp a b len).2, e.isStore = false)) ∧
    (normalizeC v34 4).1 ≠ v34 := by
  constructor
  · intro a b len
    refine ⟨?_, ?_, ?_, ?_⟩
    · simp only [euclideanDistanceC]
      exact distLoopC_noStore a b len _ 0 _ (by simp)
    · simp only [cosineSimilarityC]
      exact cosLoopC_noStore a b len _ 0 _ (by simp)
    · simp only [euclideanDistanceCpp]
      exact distLoopCpp_noStore a b len _ 0 _ (by simp)
    · simp only [cosineSimilarityCpp]
      exact cosLoopCpp_noStore a b len _ 0 _ (by simp)
  · rw [normC_v34_eval]
    with_unfolding_all decide

/-- C5 witness: a concrete load effect of a concrete call is not a
store. -/
theorem c5_read_only_witness :
    Eff.load Buf.A 0 ∈ (euclideanDistanceC [FF.fin 1, FF.fin 1, FF.fin 1, FF.fin 1]
        (zerosV 4) 4).2 ∧
      (Eff.load Buf.A 0).isStore = false :=
  ⟨by decide,
   (c5_read_only.1 [FF.fin 1, FF.fin 1, FF.fin 1, FF.fin 1] (zerosV 4) 4).1
     (Eff.load Buf.A 0) (by decide)⟩

/-- C6 counterexample: `v = [2^-100, 0, 0, 0]` is a nonzero vector of
valid length, but every squared entry underflows to `0`, the computed
norm is `0`, the `vector_simd.cpp` `normalize` leaves `v` unchanged,
and the resulting vector's exact L2 norm is `2^-100`, nowhere near 1:
the claim's "resulting vector's L2 norm equals 1 within tolerance
(1e-5)" is false on the code. -/
theorem c6_normalize_cex :
    (normalizeCpp vTiny 4).1 = vTiny ∧
      ¬ ((1 - 1 / 100000 : ℚ) ^ 2 ≤ l2sqQ (normalizeCpp vTiny 4).1) := by
  refine ⟨normCpp_tiny_eval, ?_⟩
  rw [normCpp_tiny_eval]
  simp only [vTiny, l2sqQ]
  norm_num

/-- C6 amended: the unit-norm-within-1e-5 and idempotence property
fails for nonzero vectors whose squared entries underflow (or whose sum
of squares overflows); on a well-scaled nonzero vector such as
`[3,4,0,0]`, both implementations produce a result whose exact L2 norm
is within 1e-5 of 1, and re-applying `normalize` returns the vector
exactly unchanged (the recomputed norm is exactly 1). -/
theorem c6_normalize_amended :
    ((1 - 1 / 100000 : ℚ) ^ 2 ≤ l2sqQ (normalizeC v34 4).1 ∧
      l2sqQ (normalizeC v34 4).1 ≤ (1 + 1 / 100000 : ℚ) ^ 2) ∧
    (normalizeC (normalizeC v34 4).1 4).1 = (normalizeC v34 4).1 ∧
    ((1 - 1 / 100000 : ℚ) ^ 2 ≤ l2sqQ (normalizeCpp v34 4).1 ∧
      l2sqQ (normalizeCpp v34 4).1 ≤ (1 + 1 / 100000 : ℚ) ^ 2) ∧
    (normalizeCpp (normalizeCpp v34 4).1 4).1 = (normalizeCpp v34 4).1 := by
  rw [normC_v34_eval, normCpp_v34_eval, normC_w34_eval, normCpp_w34_eval]
  refine ⟨⟨?_, ?_⟩, rfl, ⟨?_, ?_⟩, rfl⟩ <;>
  · simp only [w34, l2sqQ]
    norm_num

/-- Helper: the normalized form of `[3,4,0,0]` written through the
rounding function. -/
theorem w34_eq : w34 = [roundB32 (3 / 5), roundB32 (4 / 5), FF.fin 0, FF.fin 0] := by
  rw [roundB32_threeFifths, roundB32_fourFifths]
  rfl

/-- C7: on `v = [3, 4, 0, 0]` with `length = 4` the computed L2 norm is
exactly 5 in both implementations, and `normalize` turns the buffer
into `[fl(3/5), fl(4/5), 0, 0]` (each element the binary32 rounding of
the exact quotient) in both implementations. -/
theorem c7_concrete_scenario :
    normValueC v34 4 = FF.fin 5 ∧ normValueCpp v34 4 = FF.fin 5 ∧
    (normalizeC v34 4).1 = [roundB32 (3 / 5), roundB32 (4 / 5), FF.fin 0, FF.fin 0] ∧
    (normalizeCpp v34 4).1 = [roundB32 (3 / 5), roundB32 (4 / 5), FF.fin 0, FF.fin 0] := by
  rw [← w34_eq]
  exact ⟨normValueC_v34, normValueCpp_v34, normC_v34_eval, normCpp_v34_eval⟩

/-- C8: in exact (real-number) arithmetic the lane reduction of
vector_simd.c and the serial left-to-right sum of vector_simd.cpp agree
on every input of length a multiple of 4, but in float they round
differently: on the length-8 vector `[4096,1,1,1,1,1,1,1]` (against the
zero vector) the two `euclideanDistance` implementations return
different values. -/
theorem c8_reduction_order :
    (∀ (av bv : ℕ → ℚ) (g : ℕ),
      hsumQ (laneSumSqQ (fun j => (av j - bv j) ^ 2) 0 g (0, 0, 0, 0))
        = serialSumSqQ (fun j => (av j - bv j) ^ 2) 0 (4 * g) 0) ∧
    (euclideanDistanceC v8diff (zerosV 8) 8).1 ≠ (euclideanDistanceCpp v8diff (zerosV 8) 8).1 := by
  constructor
  · intro av bv g
    exact laneSumSqQ_eq_serial _ g 0 0 0 0 0 0 (by ring)
  · rw [distC_v8_eval, distCpp_v8_eval]
    with_unfolding_all decide

/-- C9: for `length ≤ 0` no loop body executes and no buffer element is
read or written (the traces are empty): `euclideanDistance` returns 0,
`cosineSimilarity` returns NaN (non-finite), and `normalize` leaves the
buffer untouched, in both implementations, with no error signaled. -/
theorem c9_degenerate_lengths (len : ℤ) (hlen : len ≤ 0) (a b v : List FF) :
    euclideanDistanceC a b len = (FF.fin 0, []) ∧
    euclideanDistanceCpp a b len = (FF.fin 0, []) ∧
    cosineSimilarityC a b len = (FF.nan, []) ∧
    cosineSimilarityCpp a b len = (FF.nan, []) ∧
    normalizeC v len = (v, []) ∧
    normalizeCpp v len = (v, []) := by
  have hnot : ¬ (0 : ℤ) < len := not_lt.mpr hlen
  have hdiv00 : FF.div (FF.fin 0) (FF.fin 0) = FF.nan := by simp [FF.div]
  have hdC : distLoopC a b len (len.toNat + 1) 0 (splat4 (FF.fin 0), [])
      = (splat4 (FF.fin 0), []) := by
    rw [distLoopC, if_neg hnot]
  have hdCpp : distLoopCpp a b len (len.toNat + 1) 0 (FF.fin 0, []) = (FF.fin 0, []) := by
    rw [distLoopCpp, if_neg hnot]
  have hcC : cosLoopC a b len (len.toNat + 1) 0
      (splat4 (FF.fin 0), splat4 (FF.fin 0), splat4 (FF.fin 0), [])
      = (splat4 (FF.fin 0), splat4 (FF.fin 0), splat4 (FF.fin 0), []) := by
    rw [cosLoopC, if_neg hnot]
  have hcCpp : cosLoopCpp a b len (len.toNat + 1) 0 (FF.fin 0, FF.fin 0, FF.fin 0, [])
      = (FF.fin 0, FF.fin 0, FF.fin 0, []) := by
    rw [cosLoopCpp, if_neg hnot]
  have hsC : sumSqLoopC v len (len.toNat + 1) 0 (splat4 (FF.fin 0), [])
      = (splat4 (FF.fin 0), []) := by
    rw [sumSqLoopC, if_neg hnot]
  have hsCpp : sumSqLoopCpp v len (len.toNat + 1) 0 (FF.fin 0, []) = (FF.fin 0, []) := by
    rw [sumSqLoopCpp, if_neg hnot]
  refine ⟨?_, ?_, ?_, ?_, ?_, ?_⟩
  · simp only [euclideanDistanceC, hdC]
    rw [hsum4_zero, ffSqrtF_zero]
  · simp only [euclideanDistanceCpp, hdCpp]
    rw [ffSqrtF_zero]
  · simp only [cosineSimilarityC, hcC]
    rw [hsum4_zero, ffSqrtF_zero, ffMul_zero_zero, hdiv00]
  · simp only [cosineSimilarityCpp, hcCpp]
    rw [ffSqrtF_zero, ffMul_zero_zero, hdiv00]
  · simp only [normalizeC, hsC]
    rw [hsum4_zero, ffSqrtF_zero]
    rw [scaleLoopC, if_neg hnot]
  · simp only [normalizeCpp, hsCpp]
    rw [ffSqrtF_zero, ffGt_zero_zero]
    simp

/-- C9 witness at `len = 0` with empty buffers. -/
theorem c9_degenerate_lengths_witness :
    (0 : ℤ) ≤ 0 ∧
      (euclideanDistanceC [] [] 0 = (FF.fin 0, []) ∧
        euclideanDistanceCpp [] [] 0 = (FF.fin 0, []) ∧
        cosineSimilarityC [] [] 0 = (FF.nan, []) ∧
        cosineSimilarityCpp [] [] 0 = (FF.nan, []) ∧
        normalizeC [] 0 = ([], []) ∧
        normalizeCpp [] 0 = ([], [])) :=
  ⟨by norm_num, c9_degenerate_lengths 0 (by norm_num) [] [] []⟩

/-- C10: with `0 ≤ length` and `length` a multiple of the lane width 4,
every load of `euclideanDistance` and `cosineSimilarity` and every load
and store of `normalize` in vector_simd.c hits an index in
`[0, length)`; and vector_simd.c has no scalar remainder pass: at
`length = 5` (not a multiple of 4) it issues a load at index 7, out of
range. -/
theorem c10_lane_bounds :
    (∀ (a b v : List FF) (len : ℤ), 0 ≤ len → 4 ∣ len →
      (∀ e ∈ (euclideanDistanceC a b len).2, 0 ≤ e.idx ∧ e.idx < len) ∧
      (∀ e ∈ (cosineSimilarityC a b len).2, 0 ≤ e.idx ∧ e.idx < len) ∧
      (∀ e ∈ (normalizeC v len).2, 0 ≤ e.idx ∧ e.idx < len)) ∧
    (Eff.load Buf.A 7 ∈ (euclideanDistanceC (zerosV 5) (zerosV 5) 5).2 ∧
      ¬ ((Eff.load Buf.A 7).idx < 5)) := by
  constructor
  · intro a b v len h0 h4
    refine ⟨?_, ?_, ?_⟩
    · simp only [euclideanDistanceC]
      exact distLoopC_bounds a b len h4 _ 0 _ le_rfl (dvd_zero 4) (by simp)
    · simp only [cosineSimilarityC]
      exact cosLoopC_bounds a b len h4 _ 0 _ le_rfl (dvd_zero 4) (by simp)
    · simp only [normalizeC]
      exact scaleLoopC_bounds len _ h4 _ 0 _ le_rfl (dvd_zero 4)
        (sumSqLoopC_bounds v len h4 _ 0 _ le_rfl (dvd_zero 4) (by simp))
  · exact ⟨by decide, by decide⟩

/-- C10 witness: a concrete in-range access of a concrete
lane-multiple-length call. -/
theorem c10_lane_bounds_witness :
    (0 : ℤ) ≤ 4 ∧ (4 : ℤ) ∣ 4 ∧
      Eff.load Buf.A 2 ∈ (euclideanDistanceC (zerosV 4) (zerosV 4) 4).2 ∧
      (0 ≤ (Eff.load Buf.A 2).idx ∧ (Eff.load Buf.A 2).idx < 4) :=
  ⟨by norm_num, by norm_num, by decide,
   (c10_lane_bounds.1 (zerosV 4) (zerosV 4) (zerosV 4) 4 (by norm_num) (by norm_num)).1
     (Eff.load Buf.A 2) (by decide)⟩
